import Mathlib

/-!
Shallow embedding of the citation pipeline of `src/app.py`
(pmid-to-ama): token classification, DOI normalisation, chunking,
deduplication, AMA formatting and output assembly, together with
proofs of the specification claims about them.

Python strings are modelled as Lean `String`s (lists of characters);
Python's character classes are modelled by explicit ASCII character
predicates, faithful fragments of the Unicode-aware Python ones on
the characters this development evaluates.
-/

namespace PmidToAma

/-- Fragment of Python's whitespace class (`str.strip`, regex `\s`):
the six ASCII whitespace characters. -/
def pyIsSpace (c : Char) : Bool :=
  c = ' ' || c = '\t' || c = '\n' || c = '\r' || c = '\x0b' || c = '\x0c'

/-- Character class of the regex `[.\s]` used in `ensure_one_period`. -/
def isPeriodOrSpace (c : Char) : Bool :=
  c = '.' || pyIsSpace c

/-- Fragment of the character class accepted by Python's `str.isdigit`:
ASCII decimal digits plus representative non-ASCII characters that
Python documents as digits (the compatibility superscript digits
U+00B9/U+00B2/U+00B3, fullwidth digits, Arabic-Indic and Devanagari
decimal digits). -/
def pyIsDigitChar (c : Char) : Bool :=
  c.isDigit
  || c = '¹' || c = '²' || c = '³'
  || (0xFF10 ≤ c.val && c.val ≤ 0xFF19)
  || (0x660 ≤ c.val && c.val ≤ 0x669)
  || (0x966 ≤ c.val && c.val ≤ 0x96F)

/-- Python `str.isdigit`: non-empty and every character a digit. -/
def pyIsdigit (s : String) : Bool :=
  !s.data.isEmpty && s.data.all pyIsDigitChar

/-- The function `is_pmid` from `src/app.py`: `t.isdigit()`. -/
def is_pmid (t : String) : Bool :=
  pyIsdigit t

/-- Drop the longest prefix of characters satisfying `p` (left trim). -/
def ltrim (p : Char → Bool) (l : List Char) : List Char :=
  l.dropWhile p

/-- Drop the longest suffix of characters satisfying `p` (right trim). -/
def rtrim (p : Char → Bool) (l : List Char) : List Char :=
  (l.reverse.dropWhile p).reverse

/-- Python `str.strip()` on a character list: trim whitespace at both ends. -/
def pyStripL (l : List Char) : List Char :=
  rtrim pyIsSpace (ltrim pyIsSpace l)

/-- Python `str.strip()`. -/
def pyStrip (s : String) : String :=
  ⟨pyStripL s.data⟩

/-- Core of `ensure_one_period` from `src/app.py`, on character lists:
strip the string, delete the trailing run matched by `[.\s]+$`, then
append a single `'.'` if anything is left. -/
def ensureOnePeriodL (l : List Char) : List Char :=
  let s2 := rtrim isPeriodOrSpace (pyStripL l)
  if s2 = [] then [] else s2 ++ ['.']

/-- The function `ensure_one_period` from `src/app.py`. -/
def ensure_one_period (s : String) : String :=
  ⟨ensureOnePeriodL s.data⟩

/-- The string is non-empty, its last character is `'.'`, and the
character before (if any) is not `'.'`: it ends in exactly one period. -/
def endsInExactlyOnePeriod (s : String) : Bool :=
  s.data.getLast? == some '.' && !(s.data.dropLast.getLast? == some '.')

/-! ### Trimming lemmas -/

theorem dropWhile_head_false (p : Char → Bool) :
    ∀ (l : List Char) (c : Char), (l.dropWhile p).head? = some c → p c = false := by
  intro l
  induction l with
  | nil => intro c h; simp [List.dropWhile] at h
  | cons a t ih =>
    intro c h
    by_cases hpa : p a = true
    · rw [List.dropWhile_cons_of_pos hpa] at h
      exact ih c h
    · rw [List.dropWhile_cons_of_neg hpa] at h
      simp at h
      subst h
      simpa using hpa

theorem head?_append_cases (a b : List Char) :
    (a ++ b).head? = match a with | [] => b.head? | c :: _ => some c := by
  cases a <;> rfl

theorem rtrim_append (p : Char → Bool) (l : List Char) :
    rtrim p l ++ (l.reverse.takeWhile p).reverse = l := by
  unfold rtrim
  rw [← List.reverse_append, List.takeWhile_append_dropWhile p l.reverse,
    List.reverse_reverse]

theorem mem_rtrim (p : Char → Bool) {l : List Char} {c : Char}
    (h : c ∈ rtrim p l) : c ∈ l := by
  have := rtrim_append p l
  rw [← this]
  exact List.mem_append_left _ h

theorem mem_ltrim (p : Char → Bool) {l : List Char} {c : Char}
    (h : c ∈ ltrim p l) : c ∈ l := by
  have hdec := List.takeWhile_append_dropWhile p l
  rw [← hdec]
  exact List.mem_append_right _ h

theorem mem_ltrim_or (p : Char → Bool) {l : List Char} {c : Char}
    (h : c ∈ l) : c ∈ ltrim p l ∨ p c = true := by
  rw [← List.takeWhile_append_dropWhile p l, List.mem_append] at h
  rcases h with h | h
  · exact Or.inr (List.mem_takeWhile_imp h)
  · exact Or.inl h

theorem mem_rtrim_or (p : Char → Bool) {l : List Char} {c : Char}
    (h : c ∈ l) : c ∈ rtrim p l ∨ p c = true := by
  rw [← rtrim_append p l, List.mem_append] at h
  rcases h with h | h
  · exact Or.inl h
  · right
    rw [List.mem_reverse] at h
    exact List.mem_takeWhile_imp h

theorem rtrim_eq_nil_iff (p : Char → Bool) (l : List Char) :
    rtrim p l = [] ↔ ∀ c ∈ l, p c = true := by
  unfold rtrim
  rw [List.reverse_eq_nil_iff, List.dropWhile_eq_nil_iff]
  constructor
  · intro h c hc
    exact h c (List.mem_reverse.mpr hc)
  · intro h c hc
    exact h c (List.mem_reverse.mp hc)

theorem rtrim_getLast (p : Char → Bool) (l : List Char) (c : Char)
    (h : (rtrim p l).getLast? = some c) : p c = false := by
  unfold rtrim at h
  rw [← List.head?_reverse, List.reverse_reverse] at h
  exact dropWhile_head_false p _ c h

theorem pyStripL_head (l : List Char) (c : Char)
    (h : (pyStripL l).head? = some c) : pyIsSpace c = false := by
  unfold pyStripL at h
  have hpre := rtrim_append pyIsSpace (ltrim pyIsSpace l)
  cases hr : rtrim pyIsSpace (ltrim pyIsSpace l) with
  | nil => rw [hr] at h; simp at h
  | cons a t =>
    rw [hr] at h hpre
    have hac : a = c := by simpa using h
    apply dropWhile_head_false pyIsSpace l c
    show (ltrim pyIsSpace l).head? = some c
    rw [← hpre, hac]
    rfl

theorem pyStripL_eq_nil_iff (l : List Char) :
    pyStripL l = [] ↔ ∀ c ∈ l, pyIsSpace c = true := by
  unfold pyStripL
  rw [rtrim_eq_nil_iff]
  constructor
  · intro h c hc
    rcases mem_ltrim_or pyIsSpace hc with h' | h'
    · exact h c h'
    · exact h'
  · intro h c hc
    exact h c (mem_ltrim pyIsSpace hc)

/-- The residue of `ensure_one_period` before the final period is
appended: the stripped input with its trailing `[.\s]+` run removed. -/
theorem s2_eq_nil_iff (l : List Char) :
    rtrim isPeriodOrSpace (pyStripL l) = [] ↔ ∀ c ∈ l, isPeriodOrSpace c = true := by
  rw [rtrim_eq_nil_iff]
  constructor
  · intro h c hc
    rcases mem_ltrim_or pyIsSpace hc with h' | h'
    · rcases mem_rtrim_or pyIsSpace h' with h'' | h''
      · exact h c h''
      · simp [isPeriodOrSpace, h'']
    · simp [isPeriodOrSpace, h']
  · intro h c hc
    exact h c (mem_ltrim pyIsSpace (mem_rtrim pyIsSpace hc))

theorem pyStripL_cons_period (s2 : List Char) (hne : s2 ≠ [])
    (hhead : ∀ c, s2.head? = some c → pyIsSpace c = false) :
    pyStripL (s2 ++ ['.']) = s2 ++ ['.'] := by
  cases s2 with
  | nil => exact absurd rfl hne
  | cons a t =>
    have ha : pyIsSpace a = false := hhead a rfl
    have h1 : ltrim pyIsSpace ((a :: t) ++ ['.']) = (a :: t) ++ ['.'] := by
      unfold ltrim
      rw [List.cons_append, List.dropWhile_cons_of_neg (by simp [ha])]
    unfold pyStripL
    rw [h1]
    unfold rtrim
    rw [show ((a :: t) ++ ['.']).reverse = '.' :: (a :: t).reverse by simp]
    rw [List.dropWhile_cons_of_neg (by simp [pyIsSpace])]
    simp

theorem rtrim_period_concat (s2 : List Char) (hne : s2 ≠ [])
    (hlast : ∀ c, s2.getLast? = some c → isPeriodOrSpace c = false) :
    rtrim isPeriodOrSpace (s2 ++ ['.']) = s2 := by
  unfold rtrim
  rw [show (s2 ++ ['.']).reverse = '.' :: s2.reverse by simp]
  rw [List.dropWhile_cons_of_pos (by simp [isPeriodOrSpace])]
  cases hrev : s2.reverse with
  | nil => simp at hrev; exact absurd hrev hne
  | cons b u =>
    have hb : s2.getLast? = some b := by
      rw [← List.head?_reverse, hrev]; rfl
    rw [List.dropWhile_cons_of_neg (by simp [hlast b hb])]
    rw [← hrev, List.reverse_reverse]

/-- Unfolding equation for `ensureOnePeriodL`. -/
theorem ensureOnePeriodL_eq (l : List Char) :
    ensureOnePeriodL l =
      if rtrim isPeriodOrSpace (pyStripL l) = [] then []
      else rtrim isPeriodOrSpace (pyStripL l) ++ ['.'] := rfl

/-- C10 core, on lists. -/
theorem ensureOnePeriodL_idem (l : List Char) :
    ensureOnePeriodL (ensureOnePeriodL l) = ensureOnePeriodL l := by
  by_cases h : rtrim isPeriodOrSpace (pyStripL l) = []
  · rw [ensureOnePeriodL_eq l, if_pos h]
    rfl
  · have hmain : ensureOnePeriodL l = rtrim isPeriodOrSpace (pyStripL l) ++ ['.'] := by
      rw [ensureOnePeriodL_eq l, if_neg h]
    set s2 := rtrim isPeriodOrSpace (pyStripL l) with hs2
    have hhead : ∀ c, s2.head? = some c → pyIsSpace c = false := by
      intro c hc
      have hpre := rtrim_append isPeriodOrSpace (pyStripL l)
      rw [← hs2] at hpre
      cases hcase : s2 with
      | nil => rw [hcase] at hc; simp at hc
      | cons a t =>
        rw [hcase] at hc hpre
        have hac : a = c := by simpa using hc
        apply pyStripL_head l c
        rw [← hpre, hac]
        rfl
    have hlast : ∀ c, s2.getLast? = some c → isPeriodOrSpace c = false :=
      fun c hc => rtrim_getLast isPeriodOrSpace (pyStripL l) c hc
    rw [hmain, ensureOnePeriodL_eq]
    rw [pyStripL_cons_period s2 h hhead, rtrim_period_concat s2 h hlast, if_neg h]

/-- C10: `ensure_one_period` is idempotent. -/
theorem ensure_one_period_idem (s : String) :
    ensure_one_period (ensure_one_period s) = ensure_one_period s := by
  unfold ensure_one_period
  exact congrArg String.mk (ensureOnePeriodL_idem s.data)

/-- C6 (counterexample): the input `"."` is non-empty, yet
`ensure_one_period` maps it to the empty string, so the output neither
ends in a period nor is empty only for empty input. -/
theorem ensure_one_period_c6_counterexample :
    ensure_one_period "." = "" ∧ ("." : String) ≠ "" := by
  constructor
  · decide
  · decide

/-- C6 (amended): `ensure_one_period` returns a string ending in exactly
one period whenever the input contains some character that is not a
period or whitespace, and returns the empty string exactly when every
character of the input is a period or whitespace (in particular, for the
empty input). -/
theorem ensure_one_period_amended (s : String) :
    ((∃ c ∈ s.data, isPeriodOrSpace c = false) →
      endsInExactlyOnePeriod (ensure_one_period s) = true)
    ∧ (ensure_one_period s = "" ↔ ∀ c ∈ s.data, isPeriodOrSpace c = true) := by
  have hdata : (ensure_one_period s).data = ensureOnePeriodL s.data := rfl
  constructor
  · rintro ⟨c, hc, hcp⟩
    have h : rtrim isPeriodOrSpace (pyStripL s.data) ≠ [] := by
      intro h0
      have := (s2_eq_nil_iff s.data).mp h0 c hc
      simp [this] at hcp
    have hform : ensureOnePeriodL s.data =
        rtrim isPeriodOrSpace (pyStripL s.data) ++ ['.'] := by
      rw [ensureOnePeriodL_eq, if_neg h]
    have h1 : (rtrim isPeriodOrSpace (pyStripL s.data) ++ ['.']).getLast? = some '.' :=
      List.getLast?_concat _
    have h2 : (rtrim isPeriodOrSpace (pyStripL s.data) ++ ['.']).dropLast =
        rtrim isPeriodOrSpace (pyStripL s.data) := List.dropLast_concat
    have h3 : (rtrim isPeriodOrSpace (pyStripL s.data)).getLast? ≠ some '.' := by
      intro h0
      have := rtrim_getLast isPeriodOrSpace (pyStripL s.data) '.' h0
      simp [isPeriodOrSpace] at this
    simp only [endsInExactlyOnePeriod, hdata, hform, h1, h2]
    simp [h3]
  · have hiff : ensure_one_period s = "" ↔ ensureOnePeriodL s.data = [] := by
      constructor
      · intro h0
        have := congrArg String.data h0
        rw [hdata] at this
        exact this.trans rfl
      · intro h0
        show (⟨ensureOnePeriodL s.data⟩ : String) = ""
        rw [h0]
    rw [hiff, ensureOnePeriodL_eq]
    by_cases h : rtrim isPeriodOrSpace (pyStripL s.data) = []
    · rw [if_pos h]
      exact iff_of_true rfl ((s2_eq_nil_iff s.data).mp h)
    · have hne : rtrim isPeriodOrSpace (pyStripL s.data) ++ ['.'] ≠ [] := by simp
      rw [if_neg h]
      constructor
      · intro h0
        exact absurd h0 hne
      · intro hall
        exact absurd ((s2_eq_nil_iff s.data).mpr hall) h

/-- C6 witness: the amended theorem applied at the concrete input `"a."`. -/
theorem ensure_one_period_amended_witness :
    endsInExactlyOnePeriod (ensure_one_period "a.") = true
    ∧ (ensure_one_period "a." = "" ↔
        ∀ c ∈ ("a." : String).data, isPeriodOrSpace c = true) :=
  ⟨(ensure_one_period_amended "a.").1 (by decide), (ensure_one_period_amended "a.").2⟩

/-! ### Token classification (C5) -/

theorem data_eq_nil_iff (t : String) : t.data = [] ↔ t = "" := by
  constructor
  · intro h
    cases t with
    | mk d => cases h; rfl
  · intro h
    rw [h]

/-- C5 (counterexample): the token `"²"` (superscript two, U+00B2) is a
digit for Python's `str.isdigit`, so `is_pmid` classifies it as a PMID,
although it contains no ASCII digit. -/
theorem is_pmid_c5_counterexample :
    is_pmid "²" = true ∧ ¬ (∀ c ∈ ("²" : String).data, c.isDigit = true) := by
  constructor
  · decide
  · decide

/-- C5 (amended): a non-empty token of ASCII digits is always classified
as PMID; conversely a token classified as PMID is non-empty and all of
its characters are digits in the sense of Python's `str.isdigit`, which
also accepts non-ASCII Unicode digit characters. -/
theorem is_pmid_amended (t : String) :
    (t ≠ "" → (∀ c ∈ t.data, c.isDigit = true) → is_pmid t = true)
    ∧ (is_pmid t = true → t ≠ "" ∧ ∀ c ∈ t.data, pyIsDigitChar c = true) := by
  constructor
  · intro hne hall
    have hd : t.data ≠ [] := fun h => hne ((data_eq_nil_iff t).mp h)
    unfold is_pmid pyIsdigit
    rw [Bool.and_eq_true, List.all_eq_true]
    constructor
    · simp [List.isEmpty_iff, hd]
    · intro c hc
      simp [pyIsDigitChar, hall c hc]
  · intro h
    unfold is_pmid pyIsdigit at h
    rw [Bool.and_eq_true, List.all_eq_true] at h
    obtain ⟨h1, h2⟩ := h
    refine ⟨?_, h2⟩
    intro h0
    rw [h0] at h1
    simp at h1

/-- C5 witness: the amended theorem applied at the token `"123"`. -/
theorem is_pmid_amended_witness :
    is_pmid "123" = true
    ∧ (("123" : String) ≠ "" ∧ ∀ c ∈ ("123" : String).data, pyIsDigitChar c = true) :=
  ⟨(is_pmid_amended "123").1 (by decide) (by decide),
   (is_pmid_amended "123").2 (by decide)⟩

/-! ### Order-preserving deduplication (C4)

`src/app.py` lines 266-268:
`seen = set(); resolved = [p for p in resolved if not (p in seen or seen.add(p))]`.
The membership test against the growing `seen` set is modelled by
`dedupAux` with an explicit list of already-seen PMIDs. -/

def dedupAux (seen : List String) : List String → List String
  | [] => []
  | p :: ps => if p ∈ seen then dedupAux seen ps else p :: dedupAux (p :: seen) ps

/-- The dedup comprehension of `src/app.py` (empty `seen` at the start). -/
def dedup (l : List String) : List String := dedupAux [] l

/-- Modelled from the spec's words (comparison definition for C4): the
input with, for each element, every later duplicate removed — keeping
exactly the first occurrence, in order. -/
def keepFirsts : List String → List String
  | [] => []
  | p :: ps => p :: keepFirsts (ps.filter (fun q => q ≠ p))
termination_by l => l.length
decreasing_by
  simp only [List.length_cons]
  exact Nat.lt_succ_of_le (List.length_filter_le _ _)

theorem dedupAux_eq_keepFirsts (l : List String) :
    ∀ seen, dedupAux seen l = keepFirsts (l.filter (fun q => decide (q ∉ seen))) := by
  induction l with
  | nil =>
    intro seen
    simp only [List.filter_nil]
    rw [keepFirsts]
    rfl
  | cons p ps ih =>
    intro seen
    by_cases hp : p ∈ seen
    · rw [show dedupAux seen (p :: ps) = dedupAux seen ps by simp [dedupAux, hp]]
      rw [show (p :: ps).filter (fun q => decide (q ∉ seen))
            = ps.filter (fun q => decide (q ∉ seen)) by simp [hp]]
      exact ih seen
    · rw [show dedupAux seen (p :: ps) = p :: dedupAux (p :: seen) ps by
        simp [dedupAux, hp]]
      rw [show (p :: ps).filter (fun q => decide (q ∉ seen))
            = p :: ps.filter (fun q => decide (q ∉ seen)) by simp [hp]]
      rw [keepFirsts]
      congr 1
      rw [ih (p :: seen)]
      congr 1
      rw [List.filter_filter]
      apply List.filter_congr
      intro q _
      simp [List.mem_cons]

theorem keepFirsts_sublist : ∀ l : List String, List.Sublist (keepFirsts l) l
  | [] => by rw [keepFirsts]
  | p :: ps => by
    rw [keepFirsts]
    exact List.Sublist.cons₂ p
      ((keepFirsts_sublist (ps.filter (fun q => q ≠ p))).trans (List.filter_sublist ps))
termination_by l => l.length
decreasing_by
  simp only [List.length_cons]
  exact Nat.lt_succ_of_le (List.length_filter_le _ _)

theorem keepFirsts_nodup : ∀ l : List String, (keepFirsts l).Nodup
  | [] => by rw [keepFirsts]; exact List.nodup_nil
  | p :: ps => by
    rw [keepFirsts]
    refine List.nodup_cons.mpr ⟨?_, keepFirsts_nodup (ps.filter (fun q => q ≠ p))⟩
    intro hmem
    have h := List.Sublist.subset (keepFirsts_sublist _) hmem
    simp [List.mem_filter] at h
termination_by l => l.length
decreasing_by
  simp only [List.length_cons]
  exact Nat.lt_succ_of_le (List.length_filter_le _ _)

theorem keepFirsts_mem : ∀ (l : List String) (p : String), p ∈ keepFirsts l ↔ p ∈ l
  | [], p => by rw [keepFirsts]
  | a :: ps, p => by
    rw [keepFirsts]
    by_cases hpa : p = a
    · subst hpa
      simp
    · simp only [List.mem_cons, hpa, false_or]
      rw [keepFirsts_mem (ps.filter (fun q => q ≠ a)) p]
      simp [List.mem_filter, hpa]
termination_by l => l.length
decreasing_by
  simp only [List.length_cons]
  exact Nat.lt_succ_of_le (List.length_filter_le _ _)

/-- C4: the dedup comprehension keeps exactly the first occurrence of
each PMID in order: it equals the spec-side `keepFirsts`, it is an
order-preserving sublist of its input, its result has no duplicates,
and it keeps exactly the elements of the input. -/
theorem dedup_c4 (l : List String) :
    dedup l = keepFirsts l
    ∧ List.Sublist (dedup l) l
    ∧ (dedup l).Nodup
    ∧ (∀ p, p ∈ dedup l ↔ p ∈ l) := by
  have heq : dedup l = keepFirsts l := by
    unfold dedup
    rw [dedupAux_eq_keepFirsts l []]
    congr 1
    simp
  refine ⟨heq, ?_, ?_, ?_⟩
  · rw [heq]; exact keepFirsts_sublist l
  · rw [heq]; exact keepFirsts_nodup l
  · intro p; rw [heq]; exact keepFirsts_mem l p

/-! ### Chunking (C3)

`chunk_list(xs, n) = [xs[i:i+n] for i in range(0, len(xs), n)]`.
`range(0, L, n)` enumerates `⌈L/n⌉` indices `0, n, 2n, …` when `n > 0`
and raises `ValueError` when `n = 0`, modelled as `none`. -/

def chunk_list (xs : List String) (n : Nat) : Option (List (List String)) :=
  if n = 0 then none
  else some ((List.range ((xs.length + n - 1) / n)).map (fun i => (xs.drop (i * n)).take n))

theorem chunk_join_aux (n : Nat) :
    ∀ (k : Nat) (xs : List String), xs.length ≤ k * n →
      ((List.range k).map (fun i => (xs.drop (i * n)).take n)).flatten = xs := by
  intro k
  induction k with
  | zero =>
    intro xs h
    simp only [Nat.zero_mul, Nat.le_zero] at h
    have : xs = [] := List.eq_nil_of_length_eq_zero h
    simp [this]
  | succ k ih =>
    intro xs h
    rw [List.range_succ_eq_map, List.map_cons, List.map_map, List.flatten_cons]
    have hf0 : (xs.drop (0 * n)).take n = xs.take n := by simp
    rw [hf0]
    have hrest : (List.range k).map ((fun i => (xs.drop (i * n)).take n) ∘ Nat.succ)
        = (List.range k).map (fun i => ((xs.drop n).drop (i * n)).take n) := by
      apply List.map_congr_left
      intro i _
      simp only [Function.comp_apply]
      rw [List.drop_drop]
      congr 2
      rw [Nat.succ_mul, Nat.add_comm]
    rw [hrest, ih (xs.drop n) ?hlen]
    · exact List.take_append_drop n xs
    case hlen =>
      rw [List.length_drop]
      rw [Nat.succ_mul] at h
      omega

/-- C3: for every positive batch size `n`, chunking succeeds and yields
`⌈N/n⌉` batches (characterized by `N ≤ k·n < N + n`), each of size at
most `n`, whose concatenation is exactly the input list. -/
theorem chunk_list_c3 (xs : List String) (n : Nat) (hn : 0 < n) :
    ∃ cs, chunk_list xs n = some cs
      ∧ cs.length = (xs.length + n - 1) / n
      ∧ xs.length ≤ cs.length * n
      ∧ cs.length * n < xs.length + n
      ∧ (∀ c ∈ cs, c.length ≤ n)
      ∧ cs.flatten = xs := by
  have hne : n ≠ 0 := Nat.pos_iff_ne_zero.mp hn
  refine ⟨(List.range ((xs.length + n - 1) / n)).map (fun i => (xs.drop (i * n)).take n),
    ?_, ?_, ?_, ?_, ?_, ?_⟩
  · rw [chunk_list, if_neg hne]
  · simp
  · simp only [List.length_map, List.length_range]
    have h1 := Nat.div_add_mod (xs.length + n - 1) n
    have h2 : (xs.length + n - 1) % n < n := Nat.mod_lt _ hn
    rw [Nat.mul_comm]
    omega
  · simp only [List.length_map, List.length_range]
    have h1 := Nat.div_mul_le_self (xs.length + n - 1) n
    omega
  · intro c hc
    simp only [List.mem_map, List.mem_range] at hc
    obtain ⟨i, _, rfl⟩ := hc
    rw [List.length_take]
    exact Nat.min_le_left _ _
  · apply chunk_join_aux n
    have h1 := Nat.div_add_mod (xs.length + n - 1) n
    have h2 : (xs.length + n - 1) % n < n := Nat.mod_lt _ hn
    rw [Nat.mul_comm]
    omega

/-- C3 witness: the theorem applied at the list `["a","b","c"]` with
batch size `2`. -/
theorem chunk_list_c3_witness :
    ∃ cs, chunk_list ["a", "b", "c"] 2 = some cs
      ∧ cs.length = ((["a", "b", "c"] : List String).length + 2 - 1) / 2
      ∧ (["a", "b", "c"] : List String).length ≤ cs.length * 2
      ∧ cs.length * 2 < (["a", "b", "c"] : List String).length + 2
      ∧ (∀ c ∈ cs, c.length ≤ 2)
      ∧ cs.flatten = ["a", "b", "c"] :=
  chunk_list_c3 ["a", "b", "c"] 2 (by decide)

/-! ### Output assembly (C1)

`reorder_by_input` from `src/app.py`: walk the resolved PMID order and
emit `found[p]` for the PMIDs present in the `found` dict. The dict is
modelled as a lookup function `String → Option String`. -/

def reorder_by_input (found : String → Option String) : List String → List String
  | [] => []
  | p :: ps =>
    match found p with
    | some r => r :: reorder_by_input found ps
    | none => reorder_by_input found ps

/-- C1: the assembled output is exactly the citation of each PMID of the
resolved order that is present in the found map, in that order, skipping
absent PMIDs; when the resolved order has no duplicates, the list of
PMIDs contributing a citation has no duplicates either, so no PMID's
citation is emitted twice. -/
theorem reorder_by_input_c1 (found : String → Option String) (input : List String) :
    reorder_by_input found input
      = (input.filter (fun p => (found p).isSome)).map (fun p => (found p).getD "")
    ∧ (input.Nodup → (input.filter (fun p => (found p).isSome)).Nodup) := by
  constructor
  · induction input with
    | nil => rfl
    | cons p ps ih =>
      cases hf : found p with
      | some r => simp [reorder_by_input, hf, ih]
      | none => simp [reorder_by_input, hf, ih]
  · intro h
    exact h.filter _

/-- A concrete two-entry found map for the C1 witness. -/
def foundEx : String → Option String :=
  fun p => if p = "1" then some "c1" else if p = "2" then some "c2" else none

/-- C1 witness: the theorem applied to `foundEx` and the duplicate-free
resolved order `["2", "9", "1"]`. -/
theorem reorder_by_input_c1_witness :
    reorder_by_input foundEx ["2", "9", "1"]
      = ((["2", "9", "1"] : List String).filter (fun p => (foundEx p).isSome)).map
          (fun p => (foundEx p).getD "")
    ∧ ((["2", "9", "1"] : List String).filter (fun p => (foundEx p).isSome)).Nodup :=
  ⟨(reorder_by_input_c1 foundEx ["2", "9", "1"]).1,
   (reorder_by_input_c1 foundEx ["2", "9", "1"]).2 (by decide)⟩

/-! ### Record model and AMA formatting (C2, C7, C8)

A `PubmedArticle` models the XML element handed to `format_ama`: each
field holds the text content of the corresponding sub-element when that
element is present (`text_or_none` / `get_all_text` are then applied to
it, exactly as in `src/app.py`). -/

structure Author where
  collectiveName : Option String
  lastName : Option String
  initials : Option String

/-- Helper `text_or_none`: absent element gives `None`; otherwise strip the
element text and turn an empty result into `None`. -/
def textOrNone (o : Option String) : Option String :=
  match o with
  | none => none
  | some t => let s := pyStrip t; if s = "" then none else some s

/-- Helper `get_all_text`: the field models the already-joined `itertext()` of
the element; like `text_or_none` it strips and maps empty to `None`. -/
def getAllText (o : Option String) : Option String :=
  textOrNone o

/-- Python `x or y` on `None`-or-string values. -/
def orNone (a b : Option String) : Option String :=
  match a with
  | some x => some x
  | none => b

/-- One iteration of the author loop of `format_authors`: collective
name if present, else "Last Initials", else "Last", else skipped. -/
def extractAuthorName (a : Author) : Option String :=
  match textOrNone a.collectiveName with
  | some c => some c
  | none =>
    match textOrNone a.lastName, textOrNone a.initials with
    | some l, some i => some (l ++ " " ++ i)
    | some l, none => some l
    | none, _ => none

/-- The function `format_authors` from `src/app.py`. -/
def format_authors : Option (List Author) → String → String
  | none, _ => ""
  | some la, mode =>
    let authors := la.filterMap extractAuthorName
    if authors = [] then ""
    else if mode = "3etal" ∧ 3 < authors.length then
      String.intercalate ", " (authors.take 3) ++ ", et al."
    else String.intercalate ", " authors

theorem format_authors_some (la : List Author) (mode : String) :
    format_authors (some la) mode =
      if la.filterMap extractAuthorName = [] then ""
      else if mode = "3etal" ∧ 3 < (la.filterMap extractAuthorName).length then
        String.intercalate ", " ((la.filterMap extractAuthorName).take 3) ++ ", et al."
      else String.intercalate ", " (la.filterMap extractAuthorName) := rfl

structure PubmedArticle where
  pmid : Option String
  authorList : Option (List Author)
  articleTitle : Option String
  isoAbbreviation : Option String
  medlineTA : Option String
  pubDateYear : Option String
  articleDateYear : Option String
  volume : Option String
  issue : Option String
  medlinePgn : Option String

/-- The substitution `re.sub(r"\s+", " ", ·)`: each maximal whitespace run becomes one
space. The boolean records whether the previous character was part of a
whitespace run. -/
def collapseWsAux : Bool → List Char → List Char
  | _, [] => []
  | prevWs, c :: cs =>
    if pyIsSpace c then
      if prevWs then collapseWsAux true cs
      else ' ' :: collapseWsAux true cs
    else c :: collapseWsAux false cs

def collapseWs (l : List Char) : List Char := collapseWsAux false l

/-- The substitution `re.sub(r"\.\.+", ".", ·)`: each maximal run of periods becomes one
period (runs of length one are untouched). The boolean records whether
the previous kept character was a period of a run. -/
def collapseDotsAux : Bool → List Char → List Char
  | _, [] => []
  | prevDot, c :: cs =>
    if c = '.' then
      if prevDot then collapseDotsAux true cs
      else '.' :: collapseDotsAux true cs
    else c :: collapseDotsAux false cs

def collapseDots (l : List Char) : List Char := collapseDotsAux false l

/-- The function `format_ama` from `src/app.py`. -/
def format_ama (art : PubmedArticle) (author_mode : String) (include_issue : Bool) :
    Option String × String :=
  let pmid := textOrNone art.pmid
  let authors := format_authors art.authorList author_mode
  let title := ensure_one_period ((getAllText art.articleTitle).getD "")
  let journal := ensure_one_period
    ((orNone (textOrNone art.isoAbbreviation) (textOrNone art.medlineTA)).getD "")
  let year := (orNone (textOrNone art.pubDateYear) (textOrNone art.articleDateYear)).getD ""
  let volume := (textOrNone art.volume).getD ""
  let issue := (textOrNone art.issue).getD ""
  let pages := (textOrNone art.medlinePgn).getD ""
  let parts : List String :=
    (if authors = "" then [] else [ensure_one_period authors])
    ++ (if title = "" then [] else [title])
    ++ (if journal = "" then [] else [journal])
  let vol_issue :=
    if include_issue ∧ issue ≠ "" then
      (if volume ≠ "" then volume ++ "(" ++ issue ++ ")" else "(" ++ issue ++ ")")
    else volume
  let tail : List String :=
    if year ≠ "" ∧ vol_issue ≠ "" ∧ pages ≠ "" then
      [year ++ ";" ++ vol_issue ++ ":" ++ pages ++ "."]
    else if year ≠ "" ∧ vol_issue ≠ "" then [year ++ ";" ++ vol_issue ++ "."]
    else if year ≠ "" then [year ++ "."]
    else []
  let ref := String.intercalate " " (((parts ++ tail).map pyStrip).filter (fun p => p ≠ ""))
  let ref2 := pyStrip ⟨collapseWs ref.data⟩
  let ref3 : String := ⟨collapseDots ref2.data⟩
  (pmid, ref3)

/-- C7: in truncating author mode `"3etal"`, a list yielding more than
three author names is formatted as the first three joined by `", "`
followed by `", et al."`, and a list yielding exactly three names is
formatted as the three names joined by `", "` with nothing appended. -/
theorem format_authors_c7 (la : List Author) :
    (3 < (la.filterMap extractAuthorName).length →
      format_authors (some la) "3etal"
        = String.intercalate ", " ((la.filterMap extractAuthorName).take 3) ++ ", et al.")
    ∧ ((la.filterMap extractAuthorName).length = 3 →
      format_authors (some la) "3etal"
        = String.intercalate ", " (la.filterMap extractAuthorName)) := by
  constructor
  · intro h
    have hne : la.filterMap extractAuthorName ≠ [] := by
      intro h0
      rw [h0] at h
      simp at h
    rw [format_authors_some, if_neg hne, if_pos ⟨rfl, h⟩]
  · intro h
    have hne : la.filterMap extractAuthorName ≠ [] := by
      intro h0
      rw [h0] at h
      simp at h
    have hlt : ¬ (("3etal" : String) = "3etal" ∧ 3 < (la.filterMap extractAuthorName).length) := by
      rintro ⟨-, hh⟩
      rw [h] at hh
      exact lt_irrefl 3 hh
    rw [format_authors_some, if_neg hne, if_neg hlt]

/-- An author entry given by a collective name, for concrete examples. -/
def authName (s : String) : Author := ⟨some s, none, none⟩

/-- C7 witness: the theorem applied to concrete five-author and
three-author lists. -/
theorem format_authors_c7_witness :
    format_authors (some [authName "A", authName "B", authName "C", authName "D", authName "E"]) "3etal"
      = String.intercalate ", "
          (([authName "A", authName "B", authName "C", authName "D",
             authName "E"].filterMap extractAuthorName).take 3) ++ ", et al."
    ∧ format_authors (some [authName "A", authName "B", authName "C"]) "3etal"
      = String.intercalate ", "
          ([authName "A", authName "B", authName "C"].filterMap extractAuthorName) :=
  ⟨(format_authors_c7 [authName "A", authName "B", authName "C", authName "D",
      authName "E"]).1 (by decide),
   (format_authors_c7 [authName "A", authName "B", authName "C"]).2 (by decide)⟩

/-- The record of end-to-end scenario 1: PMID 19204236, authors
Smith J and Doe A, title "A Study.", journal "J Med", year 2020,
volume 5, issue 2, pages 100-110. -/
def articleC2 : PubmedArticle :=
  ⟨some "19204236",
   some [⟨none, some "Smith", some "J"⟩, ⟨none, some "Doe", some "A"⟩],
   some "A Study.", some "J Med", none, some "2020", none,
   some "5", some "2", some "100-110"⟩

/-- C2: `format_ama` on the scenario-1 record, with issue display on and
author mode `"all"` (no truncation), returns exactly the expected AMA
citation. -/
theorem format_ama_c2 :
    format_ama articleC2 "all" true
      = (some "19204236", "Smith J, Doe A. A Study. J Med. 2020;5(2):100-110.") := by
  decide

/-! ### No two consecutive periods (C8) -/

theorem collapseDotsAux_head_true :
    ∀ (l : List Char) (c : Char), (collapseDotsAux true l).head? = some c → c ≠ '.' := by
  intro l
  induction l with
  | nil => intro c h; simp [collapseDotsAux] at h
  | cons a t ih =>
    intro c h
    by_cases ha : a = '.'
    · rw [show collapseDotsAux true (a :: t) = collapseDotsAux true t by
        simp [collapseDotsAux, ha]] at h
      exact ih c h
    · rw [show collapseDotsAux true (a :: t) = a :: collapseDotsAux false t by
        simp [collapseDotsAux, ha]] at h
      have : a = c := by simpa using h
      rw [← this]
      exact ha

theorem collapseDotsAux_chain :
    ∀ (l : List Char) (b : Bool),
      List.Chain' (fun a c => ¬(a = '.' ∧ c = '.')) (collapseDotsAux b l) := by
  intro l
  induction l with
  | nil => intro b; simp [collapseDotsAux]
  | cons a t ih =>
    intro b
    by_cases ha : a = '.'
    · cases b with
      | true =>
        rw [show collapseDotsAux true (a :: t) = collapseDotsAux true t by
          simp [collapseDotsAux, ha]]
        exact ih true
      | false =>
        rw [show collapseDotsAux false (a :: t) = '.' :: collapseDotsAux true t by
          simp [collapseDotsAux, ha]]
        rw [List.chain'_cons']
        refine ⟨?_, ih true⟩
        intro c hc hand
        exact collapseDotsAux_head_true t c hc hand.2
    · rw [show collapseDotsAux b (a :: t) = a :: collapseDotsAux false t by
        simp [collapseDotsAux, ha]]
      rw [List.chain'_cons']
      refine ⟨?_, ih false⟩
      intro c hc hand
      exact ha hand.1

/-- C8: for every record and every configuration, the citation string
returned by `format_ama` contains no two consecutive periods. -/
theorem format_ama_c8 (art : PubmedArticle) (author_mode : String) (include_issue : Bool) :
    List.Chain' (fun a b => ¬(a = '.' ∧ b = '.'))
      (format_ama art author_mode include_issue).2.data := by
  exact collapseDotsAux_chain _ false

/-! ### DOI normalisation (C9)

`normalise_doi` from `src/app.py`: strip, then drop a case-insensitive
leading `doi:` (re-stripping), then remove a case-insensitive leading
`http(s)://[dx.]doi.org/` URL wrapper. The regex
`^https?://(dx\.)?doi\.org/` matches exactly one of four fixed literal
strings at the start, checked here longest first. -/

def pyLower (s : String) : String := ⟨s.data.map Char.toLower⟩

def startsWithL : List Char → List Char → Bool
  | [], _ => true
  | _ :: _, [] => false
  | p :: ps, c :: cs => decide (p = c) && startsWithL ps cs

def urlStripL (l : List Char) : List Char :=
  let low := l.map Char.toLower
  if startsWithL ("https://dx.doi.org/".data) low then l.drop 19
  else if startsWithL ("http://dx.doi.org/".data) low then l.drop 18
  else if startsWithL ("https://doi.org/".data) low then l.drop 16
  else if startsWithL ("http://doi.org/".data) low then l.drop 15
  else l

/-- Whether a lowered token starts with one of the four `doi.org` URL
wrappers matched by the regex of `normalise_doi`. -/
def matchesUrlPat (low : List Char) : Bool :=
  startsWithL ("https://dx.doi.org/".data) low
  || startsWithL ("http://dx.doi.org/".data) low
  || startsWithL ("https://doi.org/".data) low
  || startsWithL ("http://doi.org/".data) low

def normalise_doiL (l : List Char) : List Char :=
  let t1 := pyStripL l
  let t2 :=
    if startsWithL ("doi:".data) (t1.map Char.toLower) then pyStripL (t1.drop 4)
    else t1
  urlStripL t2

/-- The function `normalise_doi` from `src/app.py`. -/
def normalise_doi (s : String) : String := ⟨normalise_doiL s.data⟩

/-- Both edge characters (if any) are non-whitespace. -/
def edgeOk (l : List Char) : Bool :=
  l.head?.all (fun c => !pyIsSpace c) && l.getLast?.all (fun c => !pyIsSpace c)

theorem urlStripL_eq (l : List Char) :
    urlStripL l =
      if startsWithL ("https://dx.doi.org/".data) (l.map Char.toLower) then l.drop 19
      else if startsWithL ("http://dx.doi.org/".data) (l.map Char.toLower) then l.drop 18
      else if startsWithL ("https://doi.org/".data) (l.map Char.toLower) then l.drop 16
      else if startsWithL ("http://doi.org/".data) (l.map Char.toLower) then l.drop 15
      else l := rfl

theorem normalise_doiL_eq (l : List Char) :
    normalise_doiL l =
      urlStripL
        (if startsWithL ("doi:".data) ((pyStripL l).map Char.toLower) then
          pyStripL ((pyStripL l).drop 4)
        else pyStripL l) := rfl

theorem startsWithL_append_self :
    ∀ (pat rest : List Char), startsWithL pat (pat ++ rest) = true := by
  intro pat
  induction pat with
  | nil => intro rest; rfl
  | cons p ps ih =>
    intro rest
    simp [startsWithL, ih rest]

theorem startsWith_append_false :
    ∀ (pat u rest : List Char), startsWithL pat u = false → startsWithL u pat = false →
      startsWithL pat (u ++ rest) = false := by
  intro pat
  induction pat with
  | nil => intro u rest h1 h2; simp [startsWithL] at h1
  | cons p ps ih =>
    intro u rest h1 h2
    cases u with
    | nil => simp [startsWithL] at h2
    | cons c cs =>
      by_cases hpc : p = c
      · subst hpc
        simp only [List.cons_append, startsWithL, eq_self_iff_true, decide_True,
          Bool.true_and] at h1 h2 ⊢
        exact ih cs rest h1 h2
      · rw [List.cons_append]
        simp [startsWithL, hpc]

theorem toLower_eq_self_of_space (c : Char) (h : pyIsSpace c = true) :
    Char.toLower c = c := by
  simp only [pyIsSpace, Bool.or_eq_true, decide_eq_true_eq] at h
  rcases h with ((((h | h) | h) | h) | h) | h <;> subst h <;> decide

theorem not_space_of_toLower (c c' : Char) (h : Char.toLower c = c')
    (h' : pyIsSpace c' = false) : pyIsSpace c = false := by
  by_contra hc
  rw [Bool.not_eq_false] at hc
  rw [toLower_eq_self_of_space c hc] at h
  subst h
  rw [hc] at h'
  exact Bool.noConfusion h'

theorem edgeOk_head (l : List Char) (h : edgeOk l = true) :
    ∀ c, l.head? = some c → pyIsSpace c = false := by
  intro c hc
  unfold edgeOk at h
  rw [Bool.and_eq_true] at h
  have h1 := h.1
  rw [hc] at h1
  simpa using h1

theorem edgeOk_last (l : List Char) (h : edgeOk l = true) :
    ∀ c, l.getLast? = some c → pyIsSpace c = false := by
  intro c hc
  unfold edgeOk at h
  rw [Bool.and_eq_true] at h
  have h2 := h.2
  rw [hc] at h2
  simpa using h2

theorem edgeOk_of_facts (l : List Char)
    (hh : ∀ c, l.head? = some c → pyIsSpace c = false)
    (hl : ∀ c, l.getLast? = some c → pyIsSpace c = false) : edgeOk l = true := by
  unfold edgeOk
  rw [Bool.and_eq_true]
  constructor
  · cases hc : l.head? with
    | none => rfl
    | some c => simp [hh c hc]
  · cases hc : l.getLast? with
    | none => rfl
    | some c => simp [hl c hc]

theorem head?_eq_of_append_left (a b : List Char) (hne : a ≠ []) :
    (a ++ b).head? = a.head? := by
  cases a with
  | nil => exact absurd rfl hne
  | cons c t => rfl

theorem getLast?_eq_of_append_right (a b : List Char) (hne : b ≠ []) :
    (a ++ b).getLast? = b.getLast? := by
  rw [← List.head?_reverse, List.reverse_append,
    head?_eq_of_append_left _ _ (by simp [hne]), List.head?_reverse]

theorem edgeOk_append (a b : List Char) (ha : edgeOk a = true) (hb : edgeOk b = true) :
    edgeOk (a ++ b) = true := by
  apply edgeOk_of_facts
  · intro c hc
    cases hA : a with
    | nil =>
      rw [hA, List.nil_append] at hc
      exact edgeOk_head b hb c hc
    | cons x t =>
      rw [hA] at hc
      rw [head?_eq_of_append_left _ _ (by simp)] at hc
      rw [← hA] at hc
      exact edgeOk_head a ha c hc
  · intro c hc
    cases hB : b with
    | nil =>
      rw [hB, List.append_nil] at hc
      exact edgeOk_last a ha c hc
    | cons x t =>
      rw [hB] at hc
      rw [getLast?_eq_of_append_right _ _ (by simp)] at hc
      rw [← hB] at hc
      exact edgeOk_last b hb c hc

theorem pyStripL_eq_self_of_edgeOk (l : List Char) (h : edgeOk l = true) :
    pyStripL l = l := by
  have hh := edgeOk_head l h
  have hl := edgeOk_last l h
  unfold pyStripL
  have h1 : ltrim pyIsSpace l = l := by
    cases l with
    | nil => rfl
    | cons a t =>
      unfold ltrim
      rw [List.dropWhile_cons_of_neg (by simp [hh a rfl])]
  rw [h1]
  cases hrev : l.reverse with
  | nil =>
    have : l = [] := List.reverse_eq_nil_iff.mp hrev
    rw [this]
    rfl
  | cons b u =>
    have hb : l.getLast? = some b := by
      rw [← List.head?_reverse, hrev]
      rfl
    unfold rtrim
    rw [hrev, List.dropWhile_cons_of_neg (by simp [hl b hb]), ← hrev,
      List.reverse_reverse]

theorem edgeOk_of_map_toLower (l pat : List Char)
    (hmap : l.map Char.toLower = pat) (hpat : edgeOk pat = true) : edgeOk l = true := by
  apply edgeOk_of_facts
  · intro c hc
    cases l with
    | nil => simp at hc
    | cons a t =>
      have hac : a = c := by simpa using hc
      subst hac
      have hcons : Char.toLower a :: t.map Char.toLower = pat := by simpa using hmap
      have hh : pat.head? = some (Char.toLower a) := by
        rw [← hcons]
        rfl
      exact not_space_of_toLower a _ rfl (edgeOk_head pat hpat _ hh)
  · intro c hc
    cases hrev : l.reverse with
    | nil =>
      have : l = [] := List.reverse_eq_nil_iff.mp hrev
      rw [this] at hc
      simp at hc
    | cons a t =>
      have hac : a = c := by
        rw [← List.head?_reverse, hrev] at hc
        simpa using hc
      subst hac
      have hrevmap : l.reverse.map Char.toLower = pat.reverse := by
        rw [List.map_reverse, hmap]
      rw [hrev] at hrevmap
      have hcons : Char.toLower a :: t.map Char.toLower = pat.reverse := by
        simpa using hrevmap
      have hh : pat.getLast? = some (Char.toLower a) := by
        rw [← List.head?_reverse, ← hcons]
        rfl
      exact not_space_of_toLower a _ rfl (edgeOk_last pat hpat _ hh)

theorem matchesUrlPat_false (low : List Char) (h : matchesUrlPat low = false) :
    startsWithL ("https://dx.doi.org/".data) low = false
    ∧ startsWithL ("http://dx.doi.org/".data) low = false
    ∧ startsWithL ("https://doi.org/".data) low = false
    ∧ startsWithL ("http://doi.org/".data) low = false := by
  unfold matchesUrlPat at h
  simp only [Bool.or_eq_false_iff] at h
  exact ⟨h.1.1.1, h.1.1.2, h.1.2, h.2⟩

theorem urlStripL_concat (url d : String)
    (hurl : url = "" ∨ pyLower url = "http://doi.org/" ∨ pyLower url = "https://doi.org/"
      ∨ pyLower url = "http://dx.doi.org/" ∨ pyLower url = "https://dx.doi.org/")
    (hd3 : matchesUrlPat (d.data.map Char.toLower) = false) :
    urlStripL (url.data ++ d.data) = d.data := by
  obtain ⟨hf1, hf2, hf3, hf4⟩ := matchesUrlPat_false _ hd3
  rcases hurl with h | h | h | h | h
  · have h0 : url.data = [] := congrArg String.data h
    rw [h0, List.nil_append, urlStripL_eq, hf1, hf2, hf3, hf4]
    rfl
  · have hm : url.data.map Char.toLower = "http://doi.org/".data := congrArg String.data h
    have hlen : url.data.length = ("http://doi.org/".data).length := by
      have := congrArg List.length hm
      simpa using this
    rw [urlStripL_eq, List.map_append, hm]
    rw [startsWith_append_false _ _ _ (by decide) (by decide)]
    rw [startsWith_append_false _ _ _ (by decide) (by decide)]
    rw [startsWith_append_false _ _ _ (by decide) (by decide)]
    rw [startsWithL_append_self]
    simp only [if_true, Bool.false_eq_true, if_false]
    rw [show (15 : Nat) = url.data.length by rw [hlen]; rfl]
    exact List.drop_left _ _
  · have hm : url.data.map Char.toLower = "https://doi.org/".data := congrArg String.data h
    have hlen : url.data.length = ("https://doi.org/".data).length := by
      have := congrArg List.length hm
      simpa using this
    rw [urlStripL_eq, List.map_append, hm]
    rw [startsWith_append_false _ _ _ (by decide) (by decide)]
    rw [startsWith_append_false _ _ _ (by decide) (by decide)]
    rw [startsWithL_append_self]
    simp only [if_true, Bool.false_eq_true, if_false]
    rw [show (16 : Nat) = url.data.length by rw [hlen]; rfl]
    exact List.drop_left _ _
  · have hm : url.data.map Char.toLower = "http://dx.doi.org/".data := congrArg String.data h
    have hlen : url.data.length = ("http://dx.doi.org/".data).length := by
      have := congrArg List.length hm
      simpa using this
    rw [urlStripL_eq, List.map_append, hm]
    rw [startsWith_append_false _ _ _ (by decide) (by decide)]
    rw [startsWithL_append_self]
    simp only [if_true, Bool.false_eq_true, if_false]
    rw [show (18 : Nat) = url.data.length by rw [hlen]; rfl]
    exact List.drop_left _ _
  · have hm : url.data.map Char.toLower = "https://dx.doi.org/".data := congrArg String.data h
    have hlen : url.data.length = ("https://dx.doi.org/".data).length := by
      have := congrArg List.length hm
      simpa using this
    rw [urlStripL_eq, List.map_append, hm]
    rw [startsWithL_append_self]
    simp only [if_true]
    rw [show (19 : Nat) = url.data.length by rw [hlen]; rfl]
    exact List.drop_left _ _

theorem edgeOk_url (url : String)
    (hurl : url = "" ∨ pyLower url = "http://doi.org/" ∨ pyLower url = "https://doi.org/"
      ∨ pyLower url = "http://dx.doi.org/" ∨ pyLower url = "https://dx.doi.org/") :
    edgeOk url.data = true := by
  rcases hurl with h | h | h | h | h
  · rw [show url.data = [] from congrArg String.data h]
    decide
  · exact edgeOk_of_map_toLower _ _ (congrArg String.data h) (by decide)
  · exact edgeOk_of_map_toLower _ _ (congrArg String.data h) (by decide)
  · exact edgeOk_of_map_toLower _ _ (congrArg String.data h) (by decide)
  · exact edgeOk_of_map_toLower _ _ (congrArg String.data h) (by decide)

/-- C9: a token consisting of an optional case-insensitive `doi:`
prefix, then an optional case-insensitive `http(s)://[dx.]doi.org/`
URL wrapper, then a bare DOI `d` (no surrounding whitespace, not itself
starting with `doi:` or a `doi.org` URL wrapper) is normalised to
exactly `d`: the wrappers are stripped and nothing else changes. -/
theorem normalise_doi_c9 (pre url d : String)
    (hpre : pre = "" ∨ pyLower pre = "doi:")
    (hurl : url = "" ∨ pyLower url = "http://doi.org/" ∨ pyLower url = "https://doi.org/"
      ∨ pyLower url = "http://dx.doi.org/" ∨ pyLower url = "https://dx.doi.org/")
    (hd1 : edgeOk d.data = true)
    (hd2 : startsWithL ("doi:".data) (d.data.map Char.toLower) = false)
    (hd3 : matchesUrlPat (d.data.map Char.toLower) = false) :
    normalise_doi (pre ++ url ++ d) = d := by
  have hudata : edgeOk (url.data ++ d.data) = true :=
    edgeOk_append _ _ (edgeOk_url url hurl) hd1
  have hstrip_ud : pyStripL (url.data ++ d.data) = url.data ++ d.data :=
    pyStripL_eq_self_of_edgeOk _ hudata
  have hcond_ud : startsWithL ("doi:".data) ((url.data ++ d.data).map Char.toLower) = false := by
    rw [List.map_append]
    rcases hurl with h | h | h | h | h
    · rw [show url.data = [] from congrArg String.data h]
      simpa using hd2
    · have hm : url.data.map Char.toLower = ("http://doi.org/" : String).data :=
        congrArg String.data h
      rw [hm]
      exact startsWith_append_false _ _ _ (by decide) (by decide)
    · have hm : url.data.map Char.toLower = ("https://doi.org/" : String).data :=
        congrArg String.data h
      rw [hm]
      exact startsWith_append_false _ _ _ (by decide) (by decide)
    · have hm : url.data.map Char.toLower = ("http://dx.doi.org/" : String).data :=
        congrArg String.data h
      rw [hm]
      exact startsWith_append_false _ _ _ (by decide) (by decide)
    · have hm : url.data.map Char.toLower = ("https://dx.doi.org/" : String).data :=
        congrArg String.data h
      rw [hm]
      exact startsWith_append_false _ _ _ (by decide) (by decide)
  have hmain : normalise_doiL (pre.data ++ (url.data ++ d.data)) = d.data := by
    rcases hpre with hp | hp
    · rw [show pre.data = [] from congrArg String.data hp, List.nil_append]
      rw [normalise_doiL_eq, hstrip_ud, hcond_ud]
      simp only [Bool.false_eq_true, if_false]
      exact urlStripL_concat url d hurl hd3
    · have hmap : pre.data.map Char.toLower = "doi:".data := congrArg String.data hp
      have hlen : pre.data.length = 4 := by
        have := congrArg List.length hmap
        simpa using this
      have hedge : edgeOk (pre.data ++ (url.data ++ d.data)) = true :=
        edgeOk_append _ _ (edgeOk_of_map_toLower _ _ hmap (by decide)) hudata
      rw [normalise_doiL_eq, pyStripL_eq_self_of_edgeOk _ hedge]
      have hcond : startsWithL ("doi:".data)
          ((pre.data ++ (url.data ++ d.data)).map Char.toLower) = true := by
        rw [List.map_append, hmap]
        exact startsWithL_append_self _ _
      rw [hcond]
      simp only [if_true]
      rw [show (4 : Nat) = pre.data.length by rw [hlen]]
      rw [List.drop_left, hstrip_ud]
      exact urlStripL_concat url d hurl hd3
  have hdata : (pre ++ url ++ d).data = pre.data ++ (url.data ++ d.data) := by
    rw [String.data_append, String.data_append, List.append_assoc]
  show (⟨normalise_doiL (pre ++ url ++ d).data⟩ : String) = d
  rw [hdata, hmain]

/-- C9 witness: the theorem applied to the token
`"DOI:https://dx.doi.org/10.1001/jama.2020.1585"`. -/
theorem normalise_doi_c9_witness :
    normalise_doi ("DOI:" ++ "https://dx.doi.org/" ++ "10.1001/jama.2020.1585")
      = "10.1001/jama.2020.1585" :=
  normalise_doi_c9 "DOI:" "https://dx.doi.org/" "10.1001/jama.2020.1585"
    (Or.inr (by decide))
    (Or.inr (Or.inr (Or.inr (Or.inr (by decide)))))
    (by decide) (by decide) (by decide)

end PmidToAma
